import Mathlib

/-!
Shallow embedding of the skill-extraction and candidate-ranking pipeline of the
resume-screening repository (source files `src/utils.py` and `main.py`).

Modelling conventions:
* Python `float` arithmetic is modelled by exact rationals (`ℚ`).
* Python `set` is modelled by `Finset String` (built with `List.toFinset`).
* Python's stable `list.sort(key=..., reverse=True)` is modelled by a stable
  descending insertion sort (`sortDesc`), whose stability and ordering are
  proved below rather than assumed.
* The spaCy tokenizer is an external collaborator; functions that consume its
  output take the token list (or the recognizer's entity list) as an argument.
-/

namespace Recruiter

/-- A candidate profile: the dictionary built in `app.py` for each resume and
consumed by `rank_candidates` in `src/utils.py`.  `match_score` and
`match_percentage` are the two fields written by the ranker. -/
structure Candidate where
  name : String
  skills : List String
  experience : List String
  education : List String
  projects : List String
  match_score : Nat
  match_percentage : ℚ
deriving DecidableEq, Repr

/-- The body of the `for candidate in candidate_data` loop of `rank_candidates`
(`src/utils.py` lines 207-210): `match_score` is the size of the intersection of
the job-skill set with the candidate's skill set, and `match_percentage` is
`(match_score / len(job_skills_set)) * 100` when the job-skill set is nonempty
and `0` otherwise. -/
def scoreOne (job_skills : List String) (c : Candidate) : Candidate :=
  let job_skills_set := job_skills.toFinset
  let ms := (job_skills_set ∩ c.skills.toFinset).card
  { c with
    match_score := ms
    match_percentage :=
      if job_skills_set = ∅ then 0 else ((ms : ℚ) / (job_skills_set.card : ℚ)) * 100 }

/-- Insert a candidate into a descending-by-percentage list, after all strictly
greater or equal-scoring earlier elements have been kept in place.  Together
with `sortDesc` this realises a stable descending sort, the behaviour of
Python's stable `list.sort(key=lambda x: x['match_percentage'], reverse=True)`
at `src/utils.py` line 212. -/
def insertDesc (c : Candidate) : List Candidate → List Candidate
  | [] => [c]
  | d :: ds =>
    if d.match_percentage ≤ c.match_percentage then c :: d :: ds
    else d :: insertDesc c ds

/-- Stable descending sort by `match_percentage` (insertion sort). -/
def sortDesc : List Candidate → List Candidate
  | [] => []
  | c :: cs => insertDesc c (sortDesc cs)

/-- `rank_candidates` (`src/utils.py` lines 195-213): score every candidate,
then sort descending by `match_percentage` with a stable sort. -/
def rank_candidates (job_skills : List String) (candidate_data : List Candidate) :
    List Candidate :=
  sortDesc (candidate_data.map (scoreOne job_skills))

/-- The fields of a candidate that `rank_candidates` never writes. -/
def frame (c : Candidate) :
    String × List String × List String × List String × List String :=
  (c.name, c.skills, c.experience, c.education, c.projects)

/-! ### Basic lemmas about the stable sort -/

theorem insertDesc_perm (c : Candidate) (l : List Candidate) :
    (insertDesc c l).Perm (c :: l) := by
  induction l with
  | nil => simp [insertDesc]
  | cons d ds ih =>
    by_cases h : d.match_percentage ≤ c.match_percentage
    · simp [insertDesc, h]
    · simp only [insertDesc, if_neg h]
      exact (ih.cons d).trans (List.Perm.swap c d ds)

theorem sortDesc_perm (l : List Candidate) : (sortDesc l).Perm l := by
  induction l with
  | nil => simp [sortDesc]
  | cons c cs ih =>
    exact (insertDesc_perm c (sortDesc cs)).trans (ih.cons c)

theorem mem_sortDesc {c : Candidate} {l : List Candidate} :
    c ∈ sortDesc l ↔ c ∈ l :=
  (sortDesc_perm l).mem_iff

/-- The ordering relation of the sort: later elements score no more. -/
def geByPct (a b : Candidate) : Prop := b.match_percentage ≤ a.match_percentage

theorem insertDesc_pairwise {c : Candidate} {l : List Candidate}
    (h : l.Pairwise geByPct) : (insertDesc c l).Pairwise geByPct := by
  induction l with
  | nil => simp [insertDesc, geByPct]
  | cons d ds ih =>
    rcases List.pairwise_cons.mp h with ⟨hd, hds⟩
    by_cases hcd : d.match_percentage ≤ c.match_percentage
    · rw [insertDesc, if_pos hcd]
      refine List.pairwise_cons.mpr ⟨?_, h⟩
      intro x hx
      rcases List.mem_cons.mp hx with rfl | hx
      · exact hcd
      · exact le_trans (hd x hx) hcd
    · rw [insertDesc, if_neg hcd]
      refine List.pairwise_cons.mpr ⟨?_, ih hds⟩
      intro x hx
      have hx' : x ∈ c :: ds := (insertDesc_perm c ds).mem_iff.mp hx
      rcases List.mem_cons.mp hx' with rfl | hx'
      · exact le_of_lt (lt_of_not_le hcd)
      · exact hd x hx'

theorem sortDesc_pairwise (l : List Candidate) : (sortDesc l).Pairwise geByPct := by
  induction l with
  | nil => simp [sortDesc]
  | cons c cs ih => exact insertDesc_pairwise ih

theorem filter_insertDesc (c : Candidate) (l : List Candidate) (q : ℚ) :
    (insertDesc c l).filter (fun x => x.match_percentage = q) =
      if c.match_percentage = q then c :: l.filter (fun x => x.match_percentage = q)
      else l.filter (fun x => x.match_percentage = q) := by
  induction l with
  | nil => by_cases h : c.match_percentage = q <;> simp [insertDesc, h]
  | cons d ds ih =>
    by_cases hcd : d.match_percentage ≤ c.match_percentage
    · rw [insertDesc, if_pos hcd]
      by_cases hc : c.match_percentage = q <;> simp [List.filter_cons, hc]
    · rw [insertDesc, if_neg hcd]
      have hdq : c.match_percentage = q → ¬ d.match_percentage = q := by
        intro hc hd
        exact hcd (le_of_eq (hd.trans hc.symm))
      by_cases hc : c.match_percentage = q
      · simp [List.filter_cons, hdq hc, ih, hc]
      · by_cases hd : d.match_percentage = q <;>
          simp [List.filter_cons, hd, ih, hc]

theorem sortDesc_filter (l : List Candidate) (q : ℚ) :
    (sortDesc l).filter (fun x => x.match_percentage = q) =
      l.filter (fun x => x.match_percentage = q) := by
  induction l with
  | nil => rfl
  | cons c cs ih =>
    by_cases hc : c.match_percentage = q <;>
      simp [sortDesc, filter_insertDesc, List.filter_cons, hc, ih]

theorem sortDesc_of_pairwise {l : List Candidate} (h : l.Pairwise geByPct) :
    sortDesc l = l := by
  induction l with
  | nil => rfl
  | cons c cs ih =>
    rcases List.pairwise_cons.mp h with ⟨hc, hcs⟩
    rw [sortDesc, ih hcs]
    cases cs with
    | nil => rfl
    | cons d ds =>
      have : d.match_percentage ≤ c.match_percentage := hc d (by simp)
      simp [insertDesc, this]

theorem sortDesc_idem (l : List Candidate) : sortDesc (sortDesc l) = sortDesc l :=
  sortDesc_of_pairwise (sortDesc_pairwise l)

theorem scoreOne_idem (js : List String) (c : Candidate) :
    scoreOne js (scoreOne js c) = scoreOne js c := rfl

theorem frame_scoreOne (js : List String) (c : Candidate) :
    frame (scoreOne js c) = frame c := rfl

/-! ### Claim theorems about `rank_candidates` -/

theorem mem_rank {c : Candidate} {js : List String} {cs : List Candidate}
    (h : c ∈ rank_candidates js cs) : ∃ a ∈ cs, c = scoreOne js a := by
  have h' : c ∈ cs.map (scoreOne js) := mem_sortDesc.mp h
  rcases List.mem_map.mp h' with ⟨a, ha, rfl⟩
  exact ⟨a, ha, rfl⟩

/-- C2: every candidate in the ranking output carries
`match_score = |jobSkills ∩ candidate.skills|`, and
`match_percentage = 100 * match_score / |jobSkills|` when the job-skill set is
nonempty, `0` when it is empty. -/
theorem rank_candidates_scores (js : List String) (cs : List Candidate)
    (c : Candidate) (hc : c ∈ rank_candidates js cs) :
    c.match_score = (js.toFinset ∩ c.skills.toFinset).card ∧
      c.match_percentage =
        (if js.toFinset = ∅ then 0
         else 100 * (c.match_score : ℚ) / (js.toFinset.card : ℚ)) := by
  rcases mem_rank hc with ⟨a, _, rfl⟩
  refine ⟨rfl, ?_⟩
  by_cases h : js.toFinset = ∅
  · simp [scoreOne, h]
  · simp only [scoreOne, if_neg h]
    ring

/-- Witness for C2 at a concrete input. -/
theorem rank_candidates_scores_witness :
    (Candidate.mk "P" ["Python"] [] [] [] 1 100).match_score =
        ((["Python"] : List String).toFinset ∩
          (Candidate.mk "P" ["Python"] [] [] [] 1 100).skills.toFinset).card ∧
      (Candidate.mk "P" ["Python"] [] [] [] 1 100).match_percentage =
        (if (["Python"] : List String).toFinset = ∅ then 0
         else 100 * ((Candidate.mk "P" ["Python"] [] [] [] 1 100).match_score : ℚ) /
           (((["Python"] : List String).toFinset.card : ℚ))) :=
  rank_candidates_scores ["Python"] [Candidate.mk "P" ["Python"] [] [] [] 0 0]
    (Candidate.mk "P" ["Python"] [] [] [] 1 100)
    (by simp [rank_candidates, sortDesc, insertDesc, scoreOne])

/-- C3: the ranking is sorted in descending order of `match_percentage`, and
the sort is stable: for every percentage value, the candidates carrying that
value appear in the output in exactly the order in which they entered the sort
(the scored input order, which is the input order).  On the concrete input
`[A(60%), B(60%), C(80%)]` the output is `[C, A, B]`. -/
theorem rank_candidates_stable :
    (∀ (js : List String) (cs : List Candidate),
        (rank_candidates js cs).Pairwise geByPct ∧
          ∀ q : ℚ,
            (rank_candidates js cs).filter (fun c => c.match_percentage = q) =
              (cs.map (scoreOne js)).filter (fun c => c.match_percentage = q)) ∧
      (rank_candidates ["S1", "S2", "S3", "S4", "S5"]
            [Candidate.mk "A" ["S1", "S2", "S3"] [] [] [] 0 0,
             Candidate.mk "B" ["S1", "S2", "S4"] [] [] [] 0 0,
             Candidate.mk "C" ["S1", "S2", "S3", "S4"] [] [] [] 0 0]).map
          (fun c => c.name) = ["C", "A", "B"] := by
  refine ⟨fun js cs => ⟨sortDesc_pairwise _, fun q => sortDesc_filter _ q⟩, ?_⟩
  norm_num +decide [rank_candidates, scoreOne, sortDesc, insertDesc]

/-- C4: invariants after ranking: percentages lie in `[0, 100]`, the match
score is bounded by the job-skill count and by the candidate's skill count, and
the percentage is zero exactly when the job-skill set is empty or disjoint from
the candidate's skills. -/
theorem rank_candidates_bounds (js : List String) (cs : List Candidate)
    (c : Candidate) (hc : c ∈ rank_candidates js cs) :
    0 ≤ c.match_percentage ∧ c.match_percentage ≤ 100 ∧
      c.match_score ≤ js.toFinset.card ∧ c.match_score ≤ js.length ∧
      c.match_score ≤ c.skills.length ∧
      (c.match_percentage = 0 ↔
        js.toFinset = ∅ ∨ js.toFinset ∩ c.skills.toFinset = ∅) := by
  rcases mem_rank hc with ⟨a, _, rfl⟩
  set jset := js.toFinset with hjset
  have hms : (scoreOne js a).match_score = (jset ∩ a.skills.toFinset).card := rfl
  have hskills : (scoreOne js a).skills = a.skills := rfl
  have hsub1 : (scoreOne js a).match_score ≤ jset.card := by
    rw [hms]
    exact Finset.card_le_card (Finset.inter_subset_left)
  have hsub2 : (scoreOne js a).match_score ≤ a.skills.toFinset.card := by
    rw [hms]
    exact Finset.card_le_card (Finset.inter_subset_right)
  by_cases h : jset = ∅
  · refine ⟨?_, ?_, hsub1, le_trans hsub1 ?_, ?_, ?_⟩
    · simp [scoreOne, ← hjset, h]
    · simp [scoreOne, ← hjset, h]
    · exact js.toFinset_card_le
    · exact le_trans hsub2 a.skills.toFinset_card_le
    · simp [scoreOne, ← hjset, h]
  · have hpos : 0 < (jset.card : ℚ) := by
      have : 0 < jset.card := Finset.card_pos.mpr (Finset.nonempty_of_ne_empty h)
      exact_mod_cast this
    have hmp : (scoreOne js a).match_percentage =
        (((scoreOne js a).match_score : ℚ) / (jset.card : ℚ)) * 100 := by
      simp [scoreOne, ← hjset, h]
    refine ⟨?_, ?_, hsub1, le_trans hsub1 ?_, le_trans hsub2 a.skills.toFinset_card_le, ?_⟩
    · rw [hmp]
      positivity
    · rw [hmp]
      have hle : ((scoreOne js a).match_score : ℚ) / (jset.card : ℚ) ≤ 1 := by
        rw [div_le_one hpos]
        exact_mod_cast hsub1
      calc ((scoreOne js a).match_score : ℚ) / (jset.card : ℚ) * 100
          ≤ 1 * 100 := by nlinarith
        _ = 100 := by norm_num
    · exact js.toFinset_card_le
    · rw [hmp, hskills, hms]
      constructor
      · intro h0
        rcases mul_eq_zero.mp h0 with h0 | h0
        · rcases div_eq_zero_iff.mp h0 with h0 | h0
          · right
            exact Finset.card_eq_zero.mp (by exact_mod_cast h0)
          · exact absurd h0 (ne_of_gt hpos)
        · norm_num at h0
      · intro h0
        rcases h0 with h0 | h0
        · exact absurd h0 h
        · rw [h0]
          norm_num

/-- Witness for C4 at a concrete input. -/
theorem rank_candidates_bounds_witness :
    0 ≤ (Candidate.mk "P" ["Python"] [] [] [] 1 100).match_percentage ∧
      (Candidate.mk "P" ["Python"] [] [] [] 1 100).match_percentage ≤ 100 ∧
      (Candidate.mk "P" ["Python"] [] [] [] 1 100).match_score ≤
        (["Python"] : List String).toFinset.card ∧
      (Candidate.mk "P" ["Python"] [] [] [] 1 100).match_score ≤
        (["Python"] : List String).length ∧
      (Candidate.mk "P" ["Python"] [] [] [] 1 100).match_score ≤
        (Candidate.mk "P" ["Python"] [] [] [] 1 100).skills.length ∧
      ((Candidate.mk "P" ["Python"] [] [] [] 1 100).match_percentage = 0 ↔
        (["Python"] : List String).toFinset = ∅ ∨
          (["Python"] : List String).toFinset ∩
            (Candidate.mk "P" ["Python"] [] [] [] 1 100).skills.toFinset = ∅) :=
  rank_candidates_bounds ["Python"] [Candidate.mk "P" ["Python"] [] [] [] 0 0]
    (Candidate.mk "P" ["Python"] [] [] [] 1 100)
    (by simp [rank_candidates, sortDesc, insertDesc, scoreOne])

/-- C8: ranking an empty candidate list yields the empty list for every
job-skill set, and ranking with an empty job-skill set leaves the ordering
unchanged and sets every score to `0` and every percentage to `0`. -/
theorem rank_candidates_degenerate :
    (∀ js : List String, rank_candidates js [] = []) ∧
      (∀ cs : List Candidate,
        rank_candidates [] cs =
          cs.map (fun c => { c with match_score := 0, match_percentage := 0 })) := by
  constructor
  · intro js
    rfl
  · intro cs
    have hscore : ∀ c : Candidate,
        scoreOne [] c = { c with match_score := 0, match_percentage := 0 } := by
      intro c
      simp [scoreOne]
    have hmap : cs.map (scoreOne []) =
        cs.map (fun c => { c with match_score := 0, match_percentage := 0 }) :=
      List.map_congr_left (fun c _ => hscore c)
    unfold rank_candidates
    rw [hmap]
    apply sortDesc_of_pairwise
    rw [List.pairwise_map]
    exact List.pairwise_iff_forall_sublist.mpr (fun _ => le_refl 0)

/-- C9: ranking is idempotent — re-ranking the ranked list with the same job
skills reproduces it exactly (same order, same scores). -/
theorem rank_candidates_idem (js : List String) (cs : List Candidate) :
    rank_candidates js (rank_candidates js cs) = rank_candidates js cs := by
  unfold rank_candidates
  have hfix : ∀ c ∈ sortDesc (cs.map (scoreOne js)), scoreOne js c = c := by
    intro c hc
    rcases List.mem_map.mp (mem_sortDesc.mp hc) with ⟨a, _, rfl⟩
    exact scoreOne_idem js a
  rw [List.map_congr_left hfix, List.map_id', sortDesc_idem]

/-- C10: ranking only rewrites `match_score` and `match_percentage`: the
multiset of (name, skills, experience, education, projects) tuples of the
output is a permutation of that of the input. -/
theorem rank_candidates_frame (js : List String) (cs : List Candidate) :
    ((rank_candidates js cs).map frame).Perm (cs.map frame) := by
  unfold rank_candidates
  have h1 : ((sortDesc (cs.map (scoreOne js))).map frame).Perm
      ((cs.map (scoreOne js)).map frame) :=
    (sortDesc_perm (cs.map (scoreOne js))).map frame
  have h2 : (cs.map (scoreOne js)).map frame = cs.map frame := by
    rw [List.map_map]
    exact List.map_congr_left (fun c _ => frame_scoreOne js c)
  rw [h2] at h1
  exact h1

/-! ### The alternate lexical scorer (`main.py`) -/

/-- A word character in the sense of the regex `\w` used by
`re.findall(r'\w+', ...)` in `main.py` (ASCII semantics: `[A-Za-z0-9_]`). -/
def isWordChar (c : Char) : Bool :=
  (('a' ≤ c && c ≤ 'z') || ('A' ≤ c && c ≤ 'Z') || ('0' ≤ c && c ≤ '9') || c = '_')

/-- Split a character list into the maximal runs of characters satisfying `p`,
dropping the separators: the semantics of `re.findall` with a `p⁺` pattern.
`cur` is the current run, accumulated in reverse. -/
def runsAux (p : Char → Bool) : List Char → List Char → List (List Char)
  | [], cur => if cur = [] then [] else [cur.reverse]
  | c :: cs, cur =>
    if p c then runsAux p cs (c :: cur)
    else if cur = [] then runsAux p cs [] else cur.reverse :: runsAux p cs []

/-- The word tokens of the lowercased text: `re.findall(r'\w+', s.lower())`
as a list of token strings. -/
def lowerWords (s : String) : List String :=
  (runsAux isWordChar (s.data.map Char.toLower) []).map String.mk

/-- `calculate_score` (`main.py` lines 15-31): lowercase both texts, collect
their word tokens into sets, return `0.0` when the job-description token set is
empty and otherwise the fraction of matched job-description tokens times 100.
Python float arithmetic is modelled exactly over `ℚ`. -/
def calculate_score (resume : String) (jd : String) : ℚ :=
  let resume_words := (lowerWords resume).toFinset
  let jd_words := (lowerWords jd).toFinset
  if jd_words = ∅ then 0
  else ((resume_words ∩ jd_words).card : ℚ) / (jd_words.card : ℚ) * 100

/-- C5: the alternate lexical scorer returns `0` for an empty job-description
token set and `100·|resumeTokens ∩ jdTokens| / |jdTokens|` otherwise, where the
token sets are the deduplicated word-character runs of the lowercased texts. -/
theorem calculate_score_spec (resume jd : String) :
    calculate_score resume jd =
      if (lowerWords jd).toFinset = ∅ then 0
      else 100 * (((lowerWords resume).toFinset ∩
              (lowerWords jd).toFinset).card : ℚ) /
            (((lowerWords jd).toFinset.card : ℚ)) := by
  unfold calculate_score
  by_cases h : (lowerWords jd).toFinset = ∅
  · simp [h]
  · rw [if_neg h, if_neg h]
    ring

/-! ### The skill matcher (`refined_extract_skills`, `src/utils.py`)

`refined_extract_skills` runs spaCy's `PhraseMatcher` (constructed with the
default `ORTH` attribute, i.e. verbatim token text) over the tokenized text and
returns `list(set(doc[start:end].text.title() for ...))`.  The spaCy tokenizer
is an external collaborator, so the embedding works on token lists: a match of
a pattern at position `i` is the pattern's token sequence appearing verbatim at
`i`, and the matched span's text is its tokens joined by single spaces. -/

/-- Python whitespace (`\s` over ASCII): space, tab, newline, carriage return,
vertical tab, form feed. -/
def pyWs (c : Char) : Bool :=
  (c == ' ') || (c == '\t') || (c == '\n') || (c == '\r') || (c == '\x0b') || (c == '\x0c')

/-- Python's `str.title()`: an alphabetic character is uppercased when the
previous character is not alphabetic and lowercased otherwise; other
characters pass through (ASCII semantics). -/
def pyTitleAux : Bool → List Char → List Char
  | _, [] => []
  | prev, c :: cs =>
    (if c.isAlpha then (if prev then c.toLower else c.toUpper) else c) ::
      pyTitleAux c.isAlpha cs

/-- Python's `str.title()` on strings. -/
def pyTitle (s : String) : String := String.mk (pyTitleAux false s.data)

/-- Tokenization into maximal whitespace-free runs: the behaviour of the spaCy
tokenizer on whitespace-separated, punctuation-free text, which covers the
inputs of the claims. -/
def wsTokenize (s : String) : List String :=
  (runsAux (fun c => !pyWs c) s.data []).map String.mk

/-- `refined_extract_skills` (`src/utils.py` lines 134-149) on a tokenized
document: collect every `(start, end)` at which some pattern's token sequence
occurs verbatim (spaCy `PhraseMatcher` with its default `ORTH` attribute),
take each matched span's text, title-case it, and deduplicate. -/
def refined_extract_skills (doc : List String) (skill_patterns : List (List String)) :
    Finset String :=
  (((skill_patterns.map (fun pat =>
        ((List.range (doc.length + 1)).filter
            (fun i => pat.isPrefixOf (doc.drop i))).map
          (fun i => (doc.drop i).take pat.length))).flatten).map
    (fun span => pyTitle (String.intercalate " " span))).toFinset

/-- `refined_extract_skills` at the text level: tokenize the text and every
vocabulary phrase (`nlp.make_doc(skill)`), then match. -/
def refined_extract_skills_text (text : String) (vocab : List String) : Finset String :=
  refined_extract_skills (wsTokenize text) (vocab.map wsTokenize)

/-- The vocabulary `PREDEFINED_SKILLS` of `src/utils.py` lines 41-45. -/
def PREDEFINED_SKILLS : List String :=
  ["Python", "SQL", "Pandas", "NumPy", "Scikit-Learn", "PyTorch", "TensorFlow",
   "Machine Learning", "Data Visualization", "Deep Learning", "Tableau", "Excel",
   "Git", "GitHub", "FastAPI", "Streamlit", "NLP", "AI", "Data Science"]

/-- The tokenized skill patterns (`skill_patterns` of `src/utils.py` line 46). -/
def skill_patterns : List (List String) := PREDEFINED_SKILLS.map wsTokenize

/-- C1 counterexample: matching the text "I use PYTHON daily" against the
vocabulary {"Python"} yields the empty set, not {"Python"}: the
`PhraseMatcher` is built with its default `ORTH` (verbatim, case-sensitive)
attribute, so the uppercase token "PYTHON" does not match the pattern token
"Python". -/
theorem refined_extract_skills_not_case_insensitive :
    refined_extract_skills_text "I use PYTHON daily" ["Python"] = ∅ ∧
      refined_extract_skills_text "I use PYTHON daily" ["Python"] ≠
        ({"Python"} : Finset String) := by
  constructor
  · decide
  · decide

/-- C1 amended: skill matching is phrase-level and tokenized but
case-sensitive: the resulting set is exactly the title-cased join of those
vocabulary patterns whose token sequences occur verbatim (case included)
as contiguous runs of the text's tokenization. -/
theorem refined_extract_skills_eq (doc : List String) (pats : List (List String)) :
    refined_extract_skills doc pats =
      ((pats.filter (fun p => decide (p <:+: doc))).map
        (fun p => pyTitle (String.intercalate " " p))).toFinset := by
  ext s
  simp only [refined_extract_skills, List.mem_toFinset, List.mem_map, List.mem_flatten,
    List.mem_filter, decide_eq_true_eq]
  constructor
  · rintro ⟨span, ⟨l, ⟨p, hp, rfl⟩, hspan⟩, rfl⟩
    rcases List.mem_map.mp hspan with ⟨i, hi, rfl⟩
    rcases List.mem_filter.mp hi with ⟨_, hpref⟩
    have hpref' : p <+: doc.drop i := by
      rwa [ List.isPrefixOf_iff_prefix] at hpref
    rcases hpref' with ⟨t, ht⟩
    refine ⟨p, ⟨hp, ⟨doc.take i, t, ?_⟩⟩, ?_⟩
    · rw [List.append_assoc, ht, List.take_append_drop]
    · rw [← ht, List.take_left]
  · rintro ⟨p, ⟨hp, s₁, t, hst⟩, rfl⟩
    have hdrop : doc.drop s₁.length = p ++ t := by
      rw [← hst, List.append_assoc, List.drop_left]
    have hlen : s₁.length < doc.length + 1 := by
      have : s₁.length + (p.length + t.length) = doc.length := by
        rw [← hst]
        simp [List.length_append]
      omega
    refine ⟨(doc.drop s₁.length).take p.length,
      ⟨_, ⟨p, hp, rfl⟩, List.mem_map.mpr ⟨s₁.length, ?_, rfl⟩⟩, ?_⟩
    · refine List.mem_filter.mpr ⟨List.mem_range.mpr hlen, ?_⟩
      rw [ List.isPrefixOf_iff_prefix, hdrop]
      exact ⟨t, rfl⟩
    · rw [hdrop, List.take_left]

/-! ### The project-section extractor (`detailed_extract_projects`, `src/utils.py`)

`detailed_extract_projects` runs
`re.findall(r"(?:projects|portfolio|personal projects)\s*\n(.*?)(?:\n\n\s*(?:skills|experience|education)|$)",
text, re.IGNORECASE | re.DOTALL)` and strips each captured group.  The embedding
below implements exactly the backtracking semantics of this pattern:
* the opening alternation tries its branches left to right, case-insensitively;
* `\s*\n` greedily consumes whitespace, backtracking to end at the last
  newline of the maximal whitespace run;
* the lazy group `(.*?)` stops at the first position where the closing
  alternation matches; its `$` branch (no `re.MULTILINE`) matches at the end
  of the text or just before a final trailing newline;
* `re.findall` resumes scanning after the end of each whole match. -/

/-- Case-insensitive literal match: if the lowercase pattern `pat` matches a
prefix of `cs` (comparing lowercased text characters), return the rest. -/
def ciPrefix : List Char → List Char → Option (List Char)
  | [], cs => some cs
  | _ :: _, [] => none
  | p :: ps, c :: cs => if c.toLower = p then ciPrefix ps cs else none

/-- Try an ordered alternation of literal branches, returning the rest after
the first branch that matches (regex alternation semantics). -/
def tryAlts : List (List Char) → List Char → Option (List Char)
  | [], _ => none
  | p :: ps, cs =>
    match ciPrefix p cs with
    | some rest => some rest
    | none => tryAlts ps cs

/-- The opening header alternation, in the source's order. -/
def sectionHeads : List (List Char) :=
  ["projects".data, "portfolio".data, "personal projects".data]

/-- The closing header alternation, in the source's order. -/
def nextHeads : List (List Char) :=
  ["skills".data, "experience".data, "education".data]

/-- `\s*\n` with greedy backtracking: consume up to and including the last
newline of the maximal whitespace prefix; fail if that prefix has none. -/
def wsLastNL : List Char → Option (List Char)
  | [] => none
  | c :: cs =>
    if pyWs c then
      match wsLastNL cs with
      | some r => some r
      | none => if c = '\n' then some cs else none
    else none

/-- The opening of the regex: a header branch followed by `\s*\n`. -/
def matchHeaderNL (cs : List Char) : Option (List Char) :=
  match tryAlts sectionHeads cs with
  | some rest => wsLastNL rest
  | none => none

/-- The closing alternation's first branch `\n\n\s*(?:skills|experience|education)`:
two newlines, then greedily skipped whitespace, then a closing header.  Returns
the rest after the header (the resume point of `re.findall`). -/
def termMatch : List Char → Option (List Char)
  | a :: b :: cs =>
    if a = '\n' ∧ b = '\n' then tryAlts nextHeads (cs.dropWhile pyWs) else none
  | _ => none

/-- The lazy capture `(.*?)(?:\n\n\s*(?:...)|$)`: walk forward, at each
position first trying the closing branch, then `$` (end of text, or just
before a single final newline); accumulate the capture in reverse in `acc`.
Returns the captured group and the rest of the text after the whole match. -/
def captureGo (acc : List Char) : List Char → List Char × List Char
  | [] => (acc.reverse, [])
  | c :: cs =>
    match termMatch (c :: cs) with
    | some rest => (acc.reverse, rest)
    | none =>
      if c = '\n' ∧ cs = [] then (acc.reverse, ['\n'])
      else captureGo (c :: acc) cs

/-- The capture starting at the beginning of the remaining text. -/
def findCapture (cs : List Char) : List Char × List Char := captureGo [] cs

/-- The `re.findall` scan, fuelled by the text length: at each position try
the whole pattern; on a match, emit the captured group and resume after the
match, otherwise advance one character. -/
def scanF : Nat → List Char → List (List Char)
  | 0, _ => []
  | _ + 1, [] => []
  | f + 1, c :: cs =>
    match matchHeaderNL (c :: cs) with
    | some afterHdr =>
      let pr := findCapture afterHdr
      pr.1 :: scanF f pr.2
    | none => scanF f cs

/-- All captured project-section groups of a text, in scan order. -/
def projScan (cs : List Char) : List (List Char) := scanF cs.length cs

/-- Python's `str.strip()`: drop whitespace from both ends. -/
def stripChars (cs : List Char) : List Char :=
  ((cs.dropWhile pyWs).reverse.dropWhile pyWs).reverse

/-- `detailed_extract_projects` (`src/utils.py` lines 180-191): the stripped
captured groups, or the sentinel when there are none. -/
def detailed_extract_projects (text : String) : List String :=
  let project_sections := projScan text.data
  if project_sections = [] then ["No projects section found."]
  else project_sections.map (fun s => String.mk (stripChars s))

/-- `detailed_extract_experience` (`src/utils.py` lines 151-163): each
"ORG"-labelled span becomes a "Worked at: ..." entry; the sentinel replaces an
empty result. -/
def detailed_extract_experience (ents : List (String × String)) : List String :=
  let experience := (ents.filter (fun e => e.2 == "ORG")).map
    (fun e => "Worked at: " ++ e.1)
  if experience = [] then ["Could not automatically extract experience."]
  else experience

/-- The keyword list of `detailed_extract_education`. -/
def education_keywords : List String := ["university", "college", "institute"]

/-- Literal prefix test on character lists. -/
def startsWith : List Char → List Char → Bool
  | [], _ => true
  | _ :: _, [] => false
  | p :: ps, c :: cs => p == c && startsWith ps cs

/-- Python's `in` on strings: `p` occurs contiguously somewhere in `l`. -/
def containsSub (p : List Char) : List Char → Bool
  | [] => startsWith p []
  | c :: cs => startsWith p (c :: cs) || containsSub p cs

/-- The qualifying test of `detailed_extract_education`: label "ORG" or
"PRODUCT" and some keyword occurring as a substring of the lowercased span. -/
def eduQualifies (e : String × String) : Bool :=
  (e.2 == "ORG" || e.2 == "PRODUCT") &&
    education_keywords.any (fun k => containsSub k.data (e.1.data.map Char.toLower))

/-- `detailed_extract_education` (`src/utils.py` lines 165-178): each
qualifying span becomes a "Studied at: ..." entry; the sentinel replaces an
empty result. -/
def detailed_extract_education (ents : List (String × String)) : List String :=
  let education := (ents.filter eduQualifies).map (fun e => "Studied at: " ++ e.1)
  if education = [] then ["Could not automatically extract education."]
  else education

/-- C6: the profile extractor is total and falls back to sentinels: whenever
the recognizer yields no qualifying spans the experience and education fields
are exactly their single sentinel entries; whenever the scan finds no project
section the projects field is its sentinel; and on the empty string (no
entities, no sections, no tokens) all fields are sentinels and the skill set
is empty. -/
theorem extract_sentinels :
    (∀ ents : List (String × String),
        ents.filter (fun e => e.2 == "ORG") = [] →
        detailed_extract_experience ents =
          ["Could not automatically extract experience."]) ∧
      (∀ ents : List (String × String),
        ents.filter eduQualifies = [] →
        detailed_extract_education ents =
          ["Could not automatically extract education."]) ∧
      (∀ text : String, projScan text.data = [] →
        detailed_extract_projects text = ["No projects section found."]) ∧
      detailed_extract_projects "" = ["No projects section found."] ∧
      refined_extract_skills (wsTokenize "") skill_patterns = ∅ ∧
      detailed_extract_experience [] =
        ["Could not automatically extract experience."] ∧
      detailed_extract_education [] =
        ["Could not automatically extract education."] := by
  refine ⟨?_, ?_, ?_, by decide, by decide, rfl, rfl⟩
  · intro ents h
    simp [detailed_extract_experience, h]
  · intro ents h
    simp [detailed_extract_education, h]
  · intro text h
    simp [detailed_extract_projects, h]

/-- Witness for C6 at concrete inputs. -/
theorem extract_sentinels_witness :
    detailed_extract_experience [("Acme", "PERSON")] =
        ["Could not automatically extract experience."] ∧
      detailed_extract_education [("Acme", "ORG")] =
        ["Could not automatically extract education."] ∧
      detailed_extract_projects "no header here" = ["No projects section found."] :=
  ⟨extract_sentinels.1 [("Acme", "PERSON")] rfl,
    extract_sentinels.2.1 [("Acme", "ORG")] (by decide),
    extract_sentinels.2.2.1 "no header here" (by decide)⟩

end Recruiter
